import Mathlib

/-!
Verification development for the CernVM-FS client core.

The definitions below are shallow embeddings of functions from the
repository sources (the FUSE front-end in src/unnamed/part_002, the
catalog layer in src/unnamed/part_003, and the tiered cache manager in
src/cvmfs/cache_tiered.cc).  Machine integers are modelled as Nat/Int
with explicit wrap-around where the C code relies on it; fallible code
returns Option/Except; the stateful front-end operations are modelled as
explicit state transformers.  Theorems at the end of the file settle the
specification claims against these embeddings.
-/

namespace Cvmfs

/-! ## Remount fence (src/unnamed/part_002, lines 230-257)

`RemountFence::Enter` spins on the `blocking_` flag and then increments the
shared `counter_`; `Leave` decrements it.  `Block` sets `blocking_` with a
compare-and-swap and then spins until `counter_` reads zero; `Unblock`
clears the flag.  We model one reader thread (a filesystem callback
wrapping its critical section in `Enter`/`Leave`) and one writer thread
(the remount committer running `Block`; swap; `Unblock`) as an
interleaved transition system.  Each transition is one atomic instruction
of the C code. -/

/-- Program counter of the reader thread in `RemountFence::Enter` /
critical section / `Leave`. -/
inductive RPc where
  /-- before the `while (atomic_read32(&blocking_))` check in `Enter()` -/
  | idle
  /-- passed the blocking check, not yet executed `atomic_inc64(&counter_)` -/
  | passed
  /-- incremented `counter_`: inside the `Enter()`/`Leave()` critical section -/
  | crit
  deriving DecidableEq, Repr

/-- Program counter of the writer thread around `Block()`/`Unblock()`. -/
inductive WPc where
  /-- before `Block()` -/
  | idle
  /-- executed the cas on `blocking_`, spinning on `counter_ > 0` -/
  | draining
  /-- `Block()` returned; the catalog swap runs here until `Unblock()` -/
  | swapping
  /-- after `Unblock()` -/
  | done
  deriving DecidableEq, Repr

/-- Shared state of the fence plus the two thread program counters. -/
structure FenceState where
  blocking : Bool
  counter : Nat
  reader : RPc
  writer : WPc
  deriving DecidableEq, Repr

/-- One atomic instruction of either thread, exactly as in the C code:
the reader's blocking check and counter increment are two separate
atomic operations. -/
inductive FenceStep : FenceState → FenceState → Prop where
  /-- `Enter`: `atomic_read32(&blocking_)` returned 0, leave the spin loop -/
  | enterCheck (c w) :
      FenceStep ⟨false, c, .idle, w⟩ ⟨false, c, .passed, w⟩
  /-- `Enter`: `atomic_inc64(&counter_)` -/
  | enterInc (b c w) :
      FenceStep ⟨b, c, .passed, w⟩ ⟨b, c + 1, .crit, w⟩
  /-- `Leave`: `atomic_dec64(&counter_)` -/
  | leave (b c w) :
      FenceStep ⟨b, c + 1, .crit, w⟩ ⟨b, c, .idle, w⟩
  /-- `Block`: `atomic_cas32(&blocking_, 0, 1)` -/
  | blockCas (b c r) :
      FenceStep ⟨b, c, r, .idle⟩ ⟨true, c, r, .draining⟩
  /-- `Block`: `atomic_read64(&counter_)` returned 0, `Block()` returns -/
  | blockReturn (b r) :
      FenceStep ⟨b, 0, r, .draining⟩ ⟨b, 0, r, .swapping⟩
  /-- `Unblock`: `atomic_cas32(&blocking_, 1, 0)` -/
  | unblock (b c r) :
      FenceStep ⟨b, c, r, .swapping⟩ ⟨false, c, r, .done⟩

/-- Initial state: fence constructed with both atomics zero, both threads
about to run. -/
def fenceInit : FenceState := ⟨false, 0, .idle, .idle⟩

/-- Reachability by interleaved execution of the two threads. -/
def FenceReach (s : FenceState) : Prop :=
  Relation.ReflTransGen FenceStep fenceInit s

/-! ## Directory handle restoration (src/unnamed/part_002)

`RestoreState` (lines 2356-2372) installs a saved directory-handle table
and walks it, raising `next_directory_handle_` to `id + 1` whenever a
restored id is `>= next_directory_handle_`.  `cvmfs_opendir`
(lines 857-864) stores a new listing under `next_directory_handle_` and
increments it. -/

/-- The `next_directory_handle_` update loop of `RestoreState`:
for each restored handle id, `if (i->first >= next_directory_handle_)
next_directory_handle_ = i->first + 1`. -/
def restoreNextHandle (saved : List Nat) (next0 : Nat) : Nat :=
  saved.foldl (fun nx h => if h ≥ nx then h + 1 else nx) next0

/-- Directory-handle bookkeeping of the front-end: the keys of
`directory_handles_` and `next_directory_handle_`. -/
structure DirHandleState where
  handles : List Nat
  nextHandle : Nat
  deriving DecidableEq, Repr

/-- `RestoreState` for the `kStateOpenDirs` entry: replace the handle
table by the saved one and update `next_directory_handle_`. -/
def restoreOpenDirs (saved : List Nat) (st : DirHandleState) : DirHandleState :=
  ⟨saved, restoreNextHandle saved st.nextHandle⟩

/-- The handle-issuing tail of `cvmfs_opendir`: the new listing is stored
under `next_directory_handle_`, which is returned in `fi->fh` and then
incremented. -/
def opendirIssue (st : DirHandleState) : Nat × DirHandleState :=
  (st.nextHandle, ⟨st.nextHandle :: st.handles, st.nextHandle + 1⟩)

/-- State after `n` further `cvmfs_opendir` calls. -/
def opendirIter (st : DirHandleState) : Nat → DirHandleState
  | 0 => st
  | n + 1 => (opendirIssue (opendirIter st n)).2

/-! ## POSIX errno values used by the front-end and the caches -/

def ENOENT : Int := 2
def EIO : Int := 5
def EEXIST : Int := 17
def EMFILE : Int := 24
def ERANGE : Int := 34
/-- `#define ENOATTR ENODATA` (src/unnamed/part_002, line 20); Linux ENODATA. -/
def ENOATTR : Int := 61

/-! ## Tiered cache manager (src/cvmfs/cache_tiered.cc, lines 49-103)

`TieredCacheManager::Open` consults the upper cache and, exactly on an
upper `-ENOENT`, the lower cache; a lower hit is copied into the upper
cache through an upper-side transaction.  The two backends are abstracted
by the results their operations return: `preadRes`/`writeRes` give the
result of the `Pread`/`Write` call at a given file offset and byte count
(offsets strictly increase across loop iterations, so this captures
arbitrary per-call outcomes).  `bufSize` is the constant
`kCopyBufferSize` from cache_tiered.h (positive). -/

structure TieredEnv where
  upperOpen : Int
  lowerOpen : Int
  lowerSize : Int
  startTxnRes : Int
  preadRes : Nat → Nat → Int
  writeRes : Nat → Nat → Int
  openFromTxnRes : Int
  commitTxnRes : Int
  bufSize : Nat

/-- Observable outcome of `TieredCacheManager::Open`: the returned value,
whether `lower_->Open` was called, the size handed to the upper
`StartTxn` (when that call was made), and whether the upper commit
completed. -/
structure TieredOutcome where
  result : Int
  lowerConsulted : Bool
  txnSize : Option Int
  committed : Bool
  deriving DecidableEq, Repr

/-- The copy loop of `TieredCacheManager::Open`: while bytes remain, read
`min(remaining, kCopyBufferSize)` bytes from the lower fd at `offset` and
write them to the upper transaction; a short or failed read, or a failed
write, aborts.  Fuel bounds the iteration count; `remaining` units of
fuel suffice because each iteration consumes at least one byte. -/
def tieredCopyLoop (env : TieredEnv) : Nat → Nat → Nat → Bool
  | 0, remaining, _ => remaining == 0
  | fuel + 1, remaining, offset =>
    if remaining = 0 then true
    else
      let nbytes := min remaining env.bufSize
      let r := env.preadRes offset nbytes
      if r < 0 ∨ r ≠ (nbytes : Int) then false
      else if env.writeRes offset nbytes < 0 then false
      else tieredCopyLoop env fuel (remaining - nbytes) (offset + nbytes)

/-- `TieredCacheManager::Open` (src/cvmfs/cache_tiered.cc, lines 49-103):
`fd` is `env.upperOpen`, `fd2` is `env.lowerOpen`, `size` is
`env.lowerSize`; every abort path returns `fd`, the error code from the
upper cache. -/
def tieredOpen (env : TieredEnv) : TieredOutcome :=
  if env.upperOpen ≥ 0 ∨ env.upperOpen ≠ -ENOENT then
    ⟨env.upperOpen, false, none, false⟩
  else if env.lowerOpen < 0 then ⟨env.upperOpen, true, none, false⟩
  else if env.lowerSize < 0 then ⟨env.upperOpen, true, none, false⟩
  else if env.startTxnRes < 0 then
    ⟨env.upperOpen, true, some env.lowerSize, false⟩
  else if tieredCopyLoop env env.lowerSize.toNat env.lowerSize.toNat 0 = false then
    ⟨env.upperOpen, true, some env.lowerSize, false⟩
  else if env.openFromTxnRes < 0 then
    ⟨env.upperOpen, true, some env.lowerSize, false⟩
  else if env.commitTxnRes < 0 then
    ⟨env.upperOpen, true, some env.lowerSize, false⟩
  else ⟨env.openFromTxnRes, true, some env.lowerSize, true⟩

/-! ## Remount state machine (src/unnamed/part_002, lines 383-477)

`RemountStart` switches to drainout mode when a new catalog revision is
available; `RemountFinish` applies the new revision once the caches are
drained; `RemountCheck` runs both at the start of lookup/getattr.  The
catalog manager's `Remount` lives in catalog_mgr.cc, which is not under
src/; its result and its effect on the loaded revision are modelled from
the spec (see `RemountEnv.applyResult`/`newRevision`).  The metadata
cache pause/drop/resume calls and the inode-generation bookkeeping are
elided: they do not affect the timers or the revision. -/

/-- `catalog::LoadError` result values. -/
inductive LoadError where
  | up2date
  | fresh
  | fail
  | noSpace
  deriving DecidableEq, Repr

/-- `kShortTermTTL` (src/unnamed/part_002, line 114): retry in 3 minutes. -/
def kShortTermTTL : Nat := 180

/-- Inputs of one remount check.  `applyResult` and `startResult` are the
values of `catalog_manager_->Remount(false)` / `Remount(true)`.
Modelled from the spec: `Remount` (catalog_mgr.cc, not under src/)
replaces the root catalog reference only when it returns a new revision
(`fresh`); on `fail`/`noSpace` no partial state is committed, so the
loaded revision is unchanged. -/
structure RemountEnv where
  now : Nat
  applyResult : LoadError
  offlineMode : Bool
  effectiveTTL : Nat
  newRevision : Nat
  startResult : LoadError
  kcacheTimeout : Nat

/-- Remount-related mutable state of the front-end. -/
structure RemountState where
  drainoutMode : Bool
  catalogsExpired : Bool
  maintenanceMode : Bool
  drainoutDeadline : Nat
  catalogsValidUntil : Nat
  alarmTimer : Nat
  revision : Nat
  deriving DecidableEq, Repr

/-- `RemountStart` (lines 383-395): a dry-run remount; on `kLoadNew` set
the drainout deadline to `now + kcache_timeout + safety_margin` (the
margin is `kReloadSafetyMargin/1000 = 0`, rounded up to 1 second) and
enter drainout mode. -/
def remountStart (env : RemountEnv) (st : RemountState) :
    LoadError × RemountState :=
  (env.startResult,
   if env.startResult = .fresh then
     { st with drainoutDeadline := env.now + env.kcacheTimeout + 1,
               drainoutMode := true }
   else st)

/-- `RemountFinish` (lines 402-451): once the drainout deadline has
passed, apply the new catalog under the fence; on `kLoadFail`,
`kLoadNoSpace` or offline mode install the short-term TTL, otherwise the
effective TTL.  The single-threaded model always wins the
`reload_critical_section_` cas. -/
def remountFinish (env : RemountEnv) (st : RemountState) : RemountState :=
  if st.drainoutMode = false then st
  else if env.now > st.drainoutDeadline then
    let rev := if env.applyResult = .fresh then env.newRevision else st.revision
    let st1 := { st with revision := rev, drainoutMode := false }
    if env.applyResult = .fail ∨ env.applyResult = .noSpace ∨
        env.offlineMode = true then
      { st1 with alarmTimer := kShortTermTTL,
                 catalogsValidUntil := env.now + kShortTermTTL }
    else
      { st1 with alarmTimer := env.effectiveTTL,
                 catalogsValidUntil := env.now + env.effectiveTTL }
  else st

/-- `RemountCheck` (lines 458-477): skip in maintenance mode; finish a
pending remount; when the TTL alarm has fired start a new one and re-arm
the timers according to the result. -/
def remountCheck (env : RemountEnv) (st : RemountState) : RemountState :=
  if st.maintenanceMode = true then st
  else
    let st1 := remountFinish env st
    if st1.catalogsExpired = true then
      let st2 := { st1 with catalogsExpired := false }
      let p := remountStart env st2
      if p.1 = .fail ∨ p.1 = .noSpace then
        { p.2 with alarmTimer := kShortTermTTL,
                   catalogsValidUntil := env.now + kShortTermTTL }
      else if p.1 = .up2date then
        { p.2 with alarmTimer := env.effectiveTTL,
                   catalogsValidUntil := env.now + env.effectiveTTL }
      else p.2
    else st1

/-! ## Inode assignment (src/unnamed/part_003, lines 391-432)

`Catalog::GetMangledInode` assigns `row_id + inode_range_.offset`, reuses
the cached inode of a nonzero hardlink group, and finally applies the
inode annotation; `Catalog::GetRowIdFromInode` strips the annotation and
subtracts the range offset.  `inode_t` is a 64-bit unsigned integer;
addition and subtraction wrap modulo `2^64`. -/

/-- `2^64`, the modulus of `inode_t` arithmetic. -/
def kU64Width : Nat := 18446744073709551616

/-- Modelled from the spec: `catalog::InodeGenerationAnnotation`
(catalog.h, not under src/) transforms an inode by XORing in a generation
counter; `Annotate` applies the XOR.  `none` models
`inode_annotation_ == NULL`. -/
def annotApply (gen : Option Nat) (ino : Nat) : Nat :=
  match gen with
  | none => ino
  | some g => Nat.xor ino g

/-- Modelled from the spec: `Strip` removes the annotation; for the XOR
transform it is the same XOR. -/
def annotStrip (gen : Option Nat) (ino : Nat) : Nat :=
  match gen with
  | none => ino
  | some g => Nat.xor ino g

/-- `DirectoryEntry::kInvalidInode` (directory_entry.h, not under src/):
the invalid inode value, modelled as 0. -/
def kInvalidInode : Nat := 0

/-- `Catalog::GetMangledInode` (lines 391-420).  `dummy` is
`inode_range_.IsDummy()`; `hmap` is the `hardlink_groups_` cache (the
insertion of a missing group is elided: for a missing group the current
inode is used, exactly as the code does on the insert path). -/
def getMangledInode (rangeOffset : Nat) (dummy : Bool) (gen : Option Nat)
    (hmap : Nat → Option Nat) (rowId hardlinkGroup : Nat) : Nat :=
  if dummy then kInvalidInode
  else
    let ino := (rowId + rangeOffset) % kU64Width
    let ino2 := if 0 < hardlinkGroup then (hmap hardlinkGroup).getD ino else ino
    annotApply gen ino2

/-- `Catalog::GetRowIdFromInode` (lines 426-432): strip the annotation if
one is set, then subtract the range offset (uint64 wrap-around). -/
def getRowIdFromInode (rangeOffset : Nat) (gen : Option Nat) (ino : Nat) : Nat :=
  let r := annotStrip gen ino
  (r + kU64Width - rangeOffset % kU64Width) % kU64Width

/-! ## Chunked read path of cvmfs_read (src/unnamed/part_002, lines 1111-1232)

For a chunked file, `cvmfs_read` looks up the inode's chunk list,
binary-searches it for the chunk containing the requested offset, and
then iterates: open the chunk's fd if needed (`cache::FetchChunk` hands
back the chunk's decompressed content, modelled by the `data` field),
`pread` `min(bytes_to_read, remaining_bytes_in_chunk)` bytes at
`offset_in_chunk`, advance to the next chunk, until `size` bytes are
produced or the chunk list is exhausted.  A `pread` on the chunk file
returns `min(count, file_size - offset)` bytes, i.e.
`(data.drop oc).take count`.  The per-chunk-fd bookkeeping
(`handle2fd`) does not affect the returned bytes and is elided. -/

/-- One entry of a chunked file's chunk list: `offset()`, `size()` and
the (decompressed, cached) chunk content bytes. -/
structure FileChunk where
  offset : Nat
  size : Nat
  data : List Nat
  deriving DecidableEq, Repr

instance : Inhabited FileChunk := ⟨⟨0, 0, []⟩⟩

/-- The well-formedness of a chunk list the spec promises: offsets cover
`[start, ...)` contiguously (hence strictly increase) and each chunk's
content has the catalog-recorded size. -/
def chunksCover : Nat → List FileChunk → Bool
  | _, [] => true
  | start, c :: rest =>
    (c.offset == start) && (c.data.length == c.size) &&
      decide (0 < c.size) && chunksCover (start + c.size) rest

/-- Total size of a chunk list (the file size for a covering list). -/
def chunksTotal (cs : List FileChunk) : Nat := (cs.map FileChunk.size).sum

/-- The binary-search loop of `cvmfs_read` (lines 1139-1154), verbatim:
`lo`/`hi`/`idx` are `idx_low`/`idx_high`/`chunk_idx`; each iteration
either narrows and recomputes `idx = lo + (hi-lo)/2` or breaks.  Fuel
bounds the iterations (`chunks.length` suffices since `hi - lo`
shrinks).  `idx - 1` is Nat subtraction; the C unsigned value coincides
on every input where the search is invoked (the coverage hypothesis
keeps `idx > lo ≥ 0` in that branch). -/
def chunkSearchLoop (chunks : List FileChunk) (off : Nat) :
    Nat → Nat → Nat → Nat → Nat
  | 0, _, _, idx => idx
  | fuel + 1, lo, hi, idx =>
    if lo < hi then
      if (chunks.getD idx default).offset > off then
        chunkSearchLoop chunks off fuel lo (idx - 1) (lo + (idx - 1 - lo) / 2)
      else if idx = chunks.length - 1 then idx
      else if (chunks.getD (idx + 1) default).offset > off then idx
      else chunkSearchLoop chunks off fuel (idx + 1) hi
        (idx + 1 + (hi - (idx + 1)) / 2)
    else idx

/-- The chunk-selection entrypoint: `idx_low = 0`,
`idx_high = chunks.size()-1`, `chunk_idx = idx_high/2`. -/
def findChunkIdx (chunks : List FileChunk) (off : Nat) : Nat :=
  chunkSearchLoop chunks off chunks.length 0 (chunks.length - 1)
    ((chunks.length - 1) / 2)

/-- The do-while read loop of `cvmfs_read` (lines 1166-1214) on the
chunk-list suffix starting at the selected chunk: read
`min(size - overall_bytes_fetched, chunk_size - offset_in_chunk)` bytes
from the current chunk at `offset_in_chunk`, append, and continue with
the next chunk (at in-chunk offset 0) while fewer than `size` bytes are
fetched and chunks remain. -/
def chunkReadLoop : List FileChunk → Nat → Nat → List Nat
  | [], _, _ => []
  | c :: rest, oc, szRem =>
    (((c.data.drop oc).take (min szRem (c.size - oc)))) ++
      (if ((c.data.drop oc).take (min szRem (c.size - oc))).length < szRem then
        chunkReadLoop rest 0
          (szRem - ((c.data.drop oc).take (min szRem (c.size - oc))).length)
      else [])

/-- The chunked branch of `cvmfs_read`: select the chunk containing
`off`, then run the read loop with
`offset_in_chunk = off - chunks[idx].offset()`. -/
def cvmfsReadChunked (chunks : List FileChunk) (off sz : Nat) : List Nat :=
  chunkReadLoop (chunks.drop (findChunkIdx chunks off))
    (off - (chunks.getD (findChunkIdx chunks off) default).offset) sz

/-! ## Catalog lookup, listing and transition-point fix-up
(src/unnamed/part_003, lines 224-296 and 605-622)

A catalog database is a table of rows keyed by the MD5 path hash, each
row carrying the hash of its parent path and the directory entry (here:
the inode and the nested-catalog-root flag, the fields the fix-up
touches).  A catalog with its ancestor chain is a nonempty list of
catalog databases: the head is the catalog itself, the tail the parent
chain (`IsRoot()` holds iff the tail is empty, since `parent_ == NULL`
exactly for the root).

`Catalog::LookupMd5Path` finds the row and applies
`FixTransitionPoint(md5path, dirent)` with the looked-up hash;
`Catalog::ListingMd5PathStat` / `ListingMd5Path` fetch all rows whose
parent hash equals the bound hash and apply `FixTransitionPoint` with
the hash of the *listed directory*.  `FixTransitionPoint` replaces the
inode of a nested-catalog-root entry in a non-root catalog by the inode
found by `parent_->LookupMd5Path(md5path, ...)`, asserting that the
parent lookup succeeds (`Except.error` models a failed assertion).

For structural recursion the parent-lookup of `FixTransitionPoint` is
inlined in `lookupMd5Path`; the theorem `lookupMd5Path_fix` recovers the
exact call shape of the C code. -/

/-- The fields of `catalog::DirectoryEntry` the fix-up concerns: the
inode and `IsNestedCatalogRoot()`. -/
structure DirEntry where
  inode : Nat
  nestedRoot : Bool
  deriving DecidableEq, Repr

/-- One row of the `catalog` table: MD5 path hash, parent path hash,
directory entry. -/
structure CatalogRow where
  hash : Nat
  parentHash : Nat
  entry : DirEntry
  deriving DecidableEq, Repr

/-- One catalog database. -/
structure CatalogData where
  rows : List CatalogRow
  deriving DecidableEq, Repr

/-- `Catalog::LookupMd5Path` on a catalog given with its ancestor chain:
find the row by hash and apply the transition-point fix-up (inlined: for
a nested-root entry in a non-root catalog, look the same hash up in the
parent and take its inode, `Except.error` for a failed
`assert(retval)`). -/
def lookupMd5Path : List CatalogData → Nat → Except Unit (Option DirEntry)
  | [], _ => .ok none
  | c :: ancs, md5 =>
    match c.rows.find? (fun r => r.hash == md5) with
    | none => .ok none
    | some r =>
      match ancs with
      | [] => .ok (some r.entry)
      | _ :: _ =>
        if r.entry.nestedRoot = true then
          match lookupMd5Path ancs md5 with
          | .ok (some pd) => .ok (some { r.entry with inode := pd.inode })
          | _ => .error ()
        else .ok (some r.entry)

/-- `Catalog::FixTransitionPoint` (lines 612-622): for a
nested-catalog-root entry in a non-root catalog, set the inode to the
one the parent records for `md5path`. -/
def fixTransitionPoint (ancs : List CatalogData) (md5 : Nat) (d : DirEntry) :
    Except Unit DirEntry :=
  match ancs with
  | [] => .ok d
  | _ :: _ =>
    if d.nestedRoot = true then
      match lookupMd5Path ancs md5 with
      | .ok (some pd) => .ok { d with inode := pd.inode }
      | _ => .error ()
    else .ok d

/-- The row loop of `ListingMd5PathStat` / `ListingMd5Path`: fix each
fetched entry with the bound (directory) hash and collect. -/
def listingFix (ancs : List CatalogData) (md5 : Nat) :
    List CatalogRow → Except Unit (List DirEntry)
  | [] => .ok []
  | r :: rs =>
    match fixTransitionPoint ancs md5 r.entry with
    | .error e => .error e
    | .ok d =>
      match listingFix ancs md5 rs with
      | .error e => .error e
      | .ok ds => .ok (d :: ds)

/-- `Catalog::ListingMd5Path` (lines 280-296; `ListingMd5PathStat`,
lines 249-270, differs only in projecting name/stat): fetch the rows
whose parent hash is the bound hash and fix each with that same hash. -/
def listingMd5Path : List CatalogData → Nat → Except Unit (List DirEntry)
  | [], _ => .ok []
  | c :: ancs, md5 =>
    listingFix ancs md5 (c.rows.filter (fun r => r.parentHash == md5))

/-! ## getxattr reply protocol (src/unnamed/part_002, lines 1337-1481)

`cvmfs_getxattr` resolves the inode, computes `attribute_value` for the
requested name (lines 1361-1472; abstracted here as the `attrVal`
argument: `some v` for a known virtual attribute with value `v`, `none`
for an unknown name), and replies according to the caller's buffer
size. -/

/-- Reply issued by `cvmfs_getxattr`. -/
inductive XattrReply where
  /-- `fuse_reply_err` -/
  | err (errno : Int)
  /-- `fuse_reply_xattr(length)`: the required buffer length -/
  | xattrSize (n : Nat)
  /-- `fuse_reply_buf(value, length)`: the value bytes and their length -/
  | buf (v : String) (n : Nat)
  deriving DecidableEq, Repr

/-- The reply logic of `cvmfs_getxattr`: inode not found replies ENOENT,
unknown attribute replies ENOATTR, and a known value follows the
size-probe protocol of lines 1474-1481. -/
def cvmfsGetxattr (found : Bool) (attrVal : Option String) (sz : Nat) :
    XattrReply :=
  if found = false then .err ENOENT
  else
    match attrVal with
    | none => .err ENOATTR
    | some v =>
      if sz = 0 then .xattrSize v.length
      else if sz ≥ v.length then .buf v v.length
      else .err ERANGE

/-! ## cvmfs_open (src/unnamed/part_002, lines 954-1105)

The open path resolves the directory entry, rejects `O_EXCL`, and then
either registers a chunked file (cap check before touching the chunk
tables) or fetches the whole file and checks the cap with the fetched fd
in hand.  `atomic_xadd32(&open_files_, 1)` returns the previous value;
the model writes the increment-then-decrement explicitly.  The
`close(fd)` of the freshly fetched fd on the over-cap path succeeds, so
its branch decrements the counter.  The DoS-backoff delay bookkeeping is
elided; the `num_io_error_` counter is kept. -/

/-- `kNumReservedFd` (src/unnamed/part_002, line 223). -/
def kNumReservedFd : Int := 512

/-- Inputs of one `cvmfs_open` call: entry resolution, open flags, the
entry's chunked flag, `max_open_files_`, the result of
`cache::FetchDirent` with the `errno` it left behind, and whether
`ListFileChunks` produced a nonempty chunk list. -/
structure OpenEnv where
  found : Bool
  flagExcl : Bool
  isChunked : Bool
  maxOpenFiles : Nat
  fetchFd : Int
  fetchErrno : Int
  chunkListOk : Bool

/-- Observable front-end state touched by `cvmfs_open`: the
`open_files_` counter, the chunk tables for the opened inode
(`inode2chunks` membership, `inode2references` count, `handle2fd` size,
`next_handle`), and `num_io_error_`. -/
structure OpenState where
  openFiles : Int
  chunkInodeReg : Bool
  chunkRefs : Nat
  handleCount : Nat
  nextHandle : Int
  numIoError : Nat
  deriving DecidableEq, Repr

/-- Reply of `cvmfs_open` to the kernel. -/
inductive OpenReply where
  | err (errno : Int)
  | fileFd (fd : Int)
  | chunkHandle (h : Int)
  deriving DecidableEq, Repr

/-- `cvmfs_open`, with the Darwin-only lock-flag check elided. -/
def cvmfsOpen (env : OpenEnv) (st : OpenState) : OpenReply × OpenState :=
  if env.found = false then (.err ENOENT, st)
  else if env.flagExcl = true then (.err EEXIST, st)
  else if env.isChunked = true then
    if st.openFiles ≥ (env.maxOpenFiles : Int) - kNumReservedFd then
      (.err EMFILE, { st with openFiles := st.openFiles + 1 - 1 })
    else if st.chunkInodeReg = false ∧ env.chunkListOk = false then
      (.err EIO, { st with openFiles := st.openFiles + 1 })
    else if st.chunkInodeReg = true then
      (.chunkHandle (-st.nextHandle),
       { st with openFiles := st.openFiles + 1, chunkRefs := st.chunkRefs + 1,
                 handleCount := st.handleCount + 1,
                 nextHandle := st.nextHandle + 1 })
    else
      (.chunkHandle (-st.nextHandle),
       { st with openFiles := st.openFiles + 1, chunkInodeReg := true,
                 chunkRefs := 1, handleCount := st.handleCount + 1,
                 nextHandle := st.nextHandle + 1 })
  else if env.fetchFd ≥ 0 then
    if st.openFiles < (env.maxOpenFiles : Int) - kNumReservedFd then
      (.fileFd env.fetchFd, { st with openFiles := st.openFiles + 1 })
    else
      (.err EMFILE, { st with openFiles := st.openFiles + 1 - 1 })
  else if env.fetchErrno = EMFILE then (.err EMFILE, st)
  else (.err (-env.fetchFd), { st with numIoError := st.numIoError + 1 })

/-! ## Forget protocol (src/unnamed/part_002, lines 594-687)

`cvmfs_lookup` calls `inode_tracker_->VfsGet(dirent.inode(), path)` on
every positive reply (non-NFS mode); `cvmfs_forget` replies without
touching the tracker for `FUSE_ROOT_ID` and otherwise calls
`VfsPut(ino, nlookup)`.  The inode tracker itself (glue_buffer.h) is not
under src/ and is modelled from the spec as a per-inode reference-count
map.  `MangleInode` (catalog_mgr.h, not under src/) is the identity on
kernel-issued inodes and is elided. -/

/-- `FUSE_ROOT_ID`: the kernel-reserved root inode number 1. -/
def kFuseRootId : Nat := 1

/-- Modelled from the spec: `InodeTracker::VfsGet` increments the
reference count of the inode (inserting it at count 1). -/
def vfsGet (t : Nat → Nat) (ino : Nat) : Nat → Nat :=
  fun i => if i = ino then t ino + 1 else t i

/-- Modelled from the spec: `InodeTracker::VfsPut(inode, n)` decrements
the reference count by `n`; an entry reaching 0 is eligible for removal
(count 0 models absence). -/
def vfsPut (t : Nat → Nat) (ino n : Nat) : Nat → Nat :=
  fun i => if i = ino then t ino - n else t i

/-- `cvmfs_forget` (lines 669-687): the tracker effect. -/
def cvmfsForget (nfsMaps : Bool) (t : Nat → Nat) (ino n : Nat) : Nat → Nat :=
  if ino = kFuseRootId then t
  else if nfsMaps = true then t
  else vfsPut t ino n

/-- The tracker effect of a positive `cvmfs_lookup` reply
(lines 649-656). -/
def cvmfsLookupReply (nfsMaps : Bool) (t : Nat → Nat) (ino : Nat) :
    Nat → Nat :=
  if nfsMaps = true then t else vfsGet t ino

/-- Tracker-relevant events delivered to the front-end: positive lookup
replies and forgets. -/
inductive FsEvent where
  | lookupRet (ino : Nat)
  | forget (ino : Nat) (n : Nat)

/-- Tracker state after a sequence of front-end events. -/
def runEvents (nfsMaps : Bool) : List FsEvent → (Nat → Nat) → (Nat → Nat)
  | [], t => t
  | .lookupRet i :: es, t => runEvents nfsMaps es (cvmfsLookupReply nfsMaps t i)
  | .forget i n :: es, t => runEvents nfsMaps es (cvmfsForget nfsMaps t i n)

/-- Number of positive lookup replies for `ino` in the trace. -/
def lookupCount (ino : Nat) : List FsEvent → Nat
  | [] => 0
  | .lookupRet i :: es => (if i = ino then 1 else 0) + lookupCount ino es
  | .forget _ _ :: es => lookupCount ino es

/-- Total forgotten count for `ino` in the trace. -/
def forgetSum (ino : Nat) : List FsEvent → Nat
  | [] => 0
  | .lookupRet _ :: es => forgetSum ino es
  | .forget i n :: es => (if i = ino then n else 0) + forgetSum ino es

/-- Kernel-protocol well-formedness of a trace for inode `ino`: every
forget count is covered by the lookups delivered before it (`c` is the
running balance). -/
def eventsOk (ino : Nat) : List FsEvent → Nat → Bool
  | [], _ => true
  | .lookupRet i :: es, c => eventsOk ino es (if i = ino then c + 1 else c)
  | .forget i n :: es, c =>
      if i = ino then decide (n ≤ c) && eventsOk ino es (c - n)
      else eventsOk ino es c

/-! ## Concrete witness inputs -/

/-- Concrete tiered-cache environment: upper misses with `-ENOENT`, lower
holds a 5-byte object behind fd 3, every read/write step succeeds, the
copy buffer holds 2 bytes, and `OpenFromTxn` yields fd 11. -/
def tieredEnvDemo : TieredEnv where
  upperOpen := -2
  lowerOpen := 3
  lowerSize := 5
  startTxnRes := 0
  preadRes := fun _ n => (n : Int)
  writeRes := fun _ n => (n : Int)
  openFromTxnRes := 11
  commitTxnRes := 0
  bufSize := 2

/-- Concrete open environment: a regular file whose fetch fails with
`errno == EMFILE` (process fd table exhausted) while the live-handle
count is far below the cap. -/
def openEnvCx : OpenEnv where
  found := true
  flagExcl := false
  isChunked := false
  maxOpenFiles := 10000
  fetchFd := -24
  fetchErrno := 24
  chunkListOk := true

/-- Concrete open state with no live handles. -/
def openStateCx : OpenState where
  openFiles := 0
  chunkInodeReg := false
  chunkRefs := 0
  handleCount := 0
  nextHandle := 1
  numIoError := 0

/-- Concrete open environment: a chunked file opened when the handle
count sits at the cap. -/
def openEnvDemo : OpenEnv where
  found := true
  flagExcl := false
  isChunked := true
  maxOpenFiles := 1024
  fetchFd := 7
  fetchErrno := 0
  chunkListOk := true

/-- Concrete open state at the cap: `1024 - 512` live handles. -/
def openStateDemo : OpenState where
  openFiles := 512
  chunkInodeReg := false
  chunkRefs := 0
  handleCount := 3
  nextHandle := 4
  numIoError := 0

/-- Concrete chunk list: three chunks at offsets 0, 3 and 5 covering a
9-byte file. -/
def chunksDemo : List FileChunk :=
  [⟨0, 3, [10, 11, 12]⟩, ⟨3, 2, [13, 14]⟩, ⟨5, 4, [15, 16, 17, 18]⟩]

/-- Concrete nested catalog mounted at the path with hash 2 below the
directory with hash 1: its own root entry carries the nested-root flag
and inode 21. -/
def childCatalogCx : CatalogData := ⟨[⟨2, 1, ⟨21, true⟩⟩]⟩

/-- Concrete parent (root) catalog: the directory with hash 1 has inode
7, and the mountpoint entry with hash 2 has inode 9. -/
def parentCatalogCx : CatalogData := ⟨[⟨1, 0, ⟨7, false⟩⟩, ⟨2, 1, ⟨9, false⟩⟩]⟩

/-- Concrete tracker holding inode 1 (the root) at count 5. -/
def forgetTrackerCx : Nat → Nat := fun i => if i = 1 then 5 else 0

/-- Concrete event trace: two lookups of inode 5, then a forget of 1. -/
def fsEventsDemo : List FsEvent := [.lookupRet 5, .lookupRet 5, .forget 5 1]

/-- Concrete remount environment: at time 1000 the dry-run remount fails. -/
def remountEnvDemo : RemountEnv where
  now := 1000
  applyResult := .up2date
  offlineMode := false
  effectiveTTL := 900
  newRevision := 18
  startResult := .fail
  kcacheTimeout := 60

/-- Concrete remount state: steady mode, TTL alarm fired, revision 17. -/
def remountStateDemo : RemountState where
  drainoutMode := false
  catalogsExpired := true
  maintenanceMode := false
  drainoutDeadline := 0
  catalogsValidUntil := 900
  alarmTimer := 0
  revision := 17

end Cvmfs

namespace Cvmfs

/-! ## Theorems: remount fence (claim C1 support) -/

/-- While the block flag is set, a reader still in the `Enter()` spin loop
cannot pass the check: no step moves it out of `idle`. -/
theorem fence_enter_waits_while_blocked (s s' : FenceState)
    (hstep : FenceStep s s') (hb : s.blocking = true) (hr : s.reader = .idle) :
    s'.reader = .idle := by
  cases hstep <;> simp_all

/-- `Block()` returns only from a state in which the shared reader counter
reads zero. -/
theorem fence_block_returns_with_counter_zero (s s' : FenceState)
    (hstep : FenceStep s s') (hw : s.writer = .draining)
    (hw' : s'.writer = .swapping) : s.counter = 0 := by
  cases hstep <;> simp_all

/-- Claim C1: the remount fence is claimed to guarantee that between the
return of `block()` and the call of `unblock()` no filesystem call is
inside its `enter()`/`leave()` critical section.  The code violates this:
because `Enter()` checks `blocking_` and increments `counter_` in two
separate atomic steps, a reader can pass the check, then `Block()` sets
the flag, reads `counter_ == 0` and returns, and the reader subsequently
increments the counter and enters the critical section while the catalog
swap is running.  The violating state is reachable from the initial
fence state. -/
theorem remount_fence_race_reachable :
    ∃ s : FenceState, FenceReach s ∧ s.writer = .swapping ∧ s.reader = .crit := by
  refine ⟨⟨true, 1, .crit, .swapping⟩, ?_, rfl, rfl⟩
  have h1 : FenceStep ⟨false, 0, .idle, .idle⟩ ⟨false, 0, .passed, .idle⟩ :=
    FenceStep.enterCheck 0 .idle
  have h2 : FenceStep ⟨false, 0, .passed, .idle⟩ ⟨true, 0, .passed, .draining⟩ :=
    FenceStep.blockCas false 0 .passed
  have h3 : FenceStep ⟨true, 0, .passed, .draining⟩ ⟨true, 0, .passed, .swapping⟩ :=
    FenceStep.blockReturn true .passed
  have h4 : FenceStep ⟨true, 0, .passed, .swapping⟩ ⟨true, 1, .crit, .swapping⟩ :=
    FenceStep.enterInc true 0 .swapping
  exact Relation.ReflTransGen.head h1 (Relation.ReflTransGen.head h2
    (Relation.ReflTransGen.head h3 (Relation.ReflTransGen.single h4)))

/-! ## Theorems: directory handle restoration (claim C10) -/

/-- The restore loop never lowers `next_directory_handle_`. -/
theorem restoreNextHandle_le (saved : List Nat) (next0 : Nat) :
    next0 ≤ restoreNextHandle saved next0 := by
  induction saved generalizing next0 with
  | nil => exact Nat.le_refl _
  | cons h t ih =>
      unfold restoreNextHandle at *
      simp only [List.foldl_cons]
      by_cases hc : h ≥ next0
      · simp only [if_pos hc]
        exact Nat.le_trans (Nat.le_trans hc (Nat.le_succ h)) (ih (h + 1))
      · simp only [if_neg hc]
        exact ih next0

/-- Every restored handle id is strictly below the updated
`next_directory_handle_`. -/
theorem restoreNextHandle_gt (saved : List Nat) (next0 : Nat) :
    ∀ h ∈ saved, h < restoreNextHandle saved next0 := by
  induction saved generalizing next0 with
  | nil => intro h hmem; cases hmem
  | cons a t ih =>
      intro h hmem
      unfold restoreNextHandle
      simp only [List.foldl_cons]
      rcases List.mem_cons.mp hmem with rfl | hmem'
      · by_cases hc : h ≥ next0
        · simp only [if_pos hc]
          exact Nat.lt_of_lt_of_le (Nat.lt_succ_self h) (restoreNextHandle_le t (h + 1))
        · simp only [if_neg hc]
          exact Nat.lt_of_lt_of_le (Nat.lt_of_not_le hc) (restoreNextHandle_le t next0)
      · by_cases hc : a ≥ next0
        · simp only [if_pos hc]; exact ih (a + 1) h hmem'
        · simp only [if_neg hc]; exact ih next0 h hmem'

/-- After `n` opendir calls the counter has advanced by `n`. -/
theorem opendirIter_nextHandle (st : DirHandleState) (n : Nat) :
    (opendirIter st n).nextHandle = st.nextHandle + n := by
  induction n with
  | zero => rfl
  | succ n ih =>
      show (opendirIter st n).nextHandle + 1 = st.nextHandle + (n + 1)
      rw [ih, Nat.add_assoc]

/-- Claim C10: after `RestoreState` installs a saved directory-handle
table, `next_directory_handle_` is strictly greater than every restored
handle id, and every handle issued by any subsequent `cvmfs_opendir` is
distinct from every restored handle. -/
theorem restore_state_fresh_dir_handles (saved : List Nat) (st : DirHandleState) :
    (∀ h ∈ saved, h < (restoreOpenDirs saved st).nextHandle) ∧
    (∀ n, (opendirIssue (opendirIter (restoreOpenDirs saved st) n)).1 ∉ saved) := by
  constructor
  · intro h hmem
    exact restoreNextHandle_gt saved st.nextHandle h hmem
  · intro n hmem
    have hissued : (opendirIssue (opendirIter (restoreOpenDirs saved st) n)).1 =
        restoreNextHandle saved st.nextHandle + n := by
      show (opendirIter (restoreOpenDirs saved st) n).nextHandle =
        restoreNextHandle saved st.nextHandle + n
      rw [opendirIter_nextHandle]
      rfl
    rw [hissued] at hmem
    have := restoreNextHandle_gt saved st.nextHandle _ hmem
    omega

/-! ## Theorems: tiered cache read path (claim C3) -/

/-- When every `Pread` returns the full requested count and every `Write`
succeeds, the copy loop completes (the fuel `remaining` suffices because
each iteration consumes at least one byte). -/
theorem tieredCopyLoop_all_ok (env : TieredEnv) (hbuf : 0 < env.bufSize)
    (hpread : ∀ o n, env.preadRes o n = (n : Int))
    (hwrite : ∀ o n, 0 ≤ env.writeRes o n) :
    ∀ fuel remaining offset, remaining ≤ fuel →
      tieredCopyLoop env fuel remaining offset = true := by
  intro fuel
  induction fuel with
  | zero =>
      intro remaining offset hle
      have : remaining = 0 := Nat.le_zero.mp hle
      subst this
      rfl
  | succ fuel ih =>
      intro remaining offset hle
      unfold tieredCopyLoop
      by_cases h0 : remaining = 0
      · simp [h0]
      · have hnb : 0 < min remaining env.bufSize :=
          lt_min (Nat.pos_of_ne_zero h0) hbuf
        have hr := hpread offset (min remaining env.bufSize)
        have hw := hwrite offset (min remaining env.bufSize)
        simp only [if_neg h0]
        rw [if_neg, if_neg]
        · exact ih (remaining - min remaining env.bufSize)
            (offset + min remaining env.bufSize) (by omega)
        · omega
        · rw [hr]
          push_neg
          constructor
          · positivity
          · rfl

/-- Claim C3: `TieredCacheManager::Open` consults the lower cache exactly
when the upper `Open` returned `-ENOENT`; on a lower hit with all copy
steps succeeding it opens an upper transaction of the lower object's
size, commits it, and returns the fd from `OpenFromTxn`; whenever the
promotion does not commit, the value returned is the upper cache's
original result. -/
theorem tiered_open_spec (env : TieredEnv) (hbuf : 0 < env.bufSize) :
    ((tieredOpen env).lowerConsulted = true ↔ env.upperOpen = -ENOENT) ∧
    ((env.upperOpen = -ENOENT ∧ 0 ≤ env.lowerOpen ∧ 0 ≤ env.lowerSize ∧
      0 ≤ env.startTxnRes ∧ (∀ o n, env.preadRes o n = (n : Int)) ∧
      (∀ o n, 0 ≤ env.writeRes o n) ∧ 0 ≤ env.openFromTxnRes ∧
      0 ≤ env.commitTxnRes) →
      (tieredOpen env).result = env.openFromTxnRes ∧
      (tieredOpen env).txnSize = some env.lowerSize ∧
      (tieredOpen env).committed = true) ∧
    ((tieredOpen env).committed = false →
      (tieredOpen env).result = env.upperOpen) ∧
    ((tieredOpen env).committed = true →
      (tieredOpen env).result = env.openFromTxnRes) := by
  have hcases : (tieredOpen env).committed = false ∧
        (tieredOpen env).result = env.upperOpen ∨
      (tieredOpen env).committed = true ∧
        tieredOpen env = ⟨env.openFromTxnRes, true, some env.lowerSize, true⟩ := by
    unfold tieredOpen
    split_ifs <;> simp
  refine ⟨?_, ?_, ?_, ?_⟩
  · unfold tieredOpen
    split_ifs with h <;> simp_all [ENOENT] <;> omega
  · rintro ⟨h1, h2, h3, h4, h5, h6, h7, h8⟩
    have hloop := tieredCopyLoop_all_ok env hbuf h5 h6
      env.lowerSize.toNat env.lowerSize.toNat 0 (Nat.le_refl _)
    have h1' : env.upperOpen = -2 := by rw [h1]; rfl
    have hres : tieredOpen env = ⟨env.openFromTxnRes, true, some env.lowerSize, true⟩ := by
      unfold tieredOpen
      rw [if_neg (by rw [h1']; norm_num [ENOENT]), if_neg (by omega),
          if_neg (by omega), if_neg (by omega), if_neg (by simp [hloop]),
          if_neg (by omega), if_neg (by omega)]
    rw [hres]
    exact ⟨rfl, rfl, rfl⟩
  · intro hc
    rcases hcases with ⟨_, hr⟩ | ⟨ht, _⟩
    · exact hr
    · rw [ht] at hc; cases hc
  · intro hc
    rcases hcases with ⟨hf, _⟩ | ⟨_, hr⟩
    · rw [hf] at hc; cases hc
    · rw [hr]

/-- Witness for claim C3 at a concrete environment: upper misses with
`-ENOENT`, the lower has a 5-byte object, the copy succeeds with a 2-byte
buffer, and the promoted fd 11 is returned. -/
theorem tiered_open_spec_witness :
    (tieredOpen tieredEnvDemo).result = 11 ∧
    (tieredOpen tieredEnvDemo).txnSize = some 5 ∧
    (tieredOpen tieredEnvDemo).committed = true ∧
    (tieredOpen tieredEnvDemo).lowerConsulted = true := by
  have h := tiered_open_spec tieredEnvDemo (by decide)
  have h2 := h.2.1 ⟨rfl, by decide, by decide, by decide,
    fun o n => rfl, fun o n => Int.natCast_nonneg n, by decide, by decide⟩
  exact ⟨h2.1, h2.2.1, h2.2.2, (h.1).mpr rfl⟩

/-! ## Theorems: short-term TTL on failed reload (claim C6) -/

/-- Claim C6: when the catalog TTL has expired and the remount start
returns `kLoadFail`/`kLoadNoSpace`, or when a drained-out remount
finishes with `kLoadFail`/`kLoadNoSpace` or in offline mode, the client
re-arms the alarm to 180 s, sets `catalogs_valid_until_ = now + 180`,
and (for a failed apply) keeps serving the loaded revision. -/
theorem remount_failure_short_term_ttl (env : RemountEnv) (st : RemountState)
    (hm : st.maintenanceMode = false) :
    ((st.drainoutMode = false ∧ st.catalogsExpired = true ∧
      (env.startResult = .fail ∨ env.startResult = .noSpace)) →
      (remountCheck env st).catalogsValidUntil = env.now + kShortTermTTL ∧
      (remountCheck env st).alarmTimer = kShortTermTTL ∧
      (remountCheck env st).revision = st.revision) ∧
    ((st.drainoutMode = true ∧ env.now > st.drainoutDeadline ∧
      st.catalogsExpired = false ∧
      (env.applyResult = .fail ∨ env.applyResult = .noSpace ∨
        env.offlineMode = true)) →
      (remountCheck env st).catalogsValidUntil = env.now + kShortTermTTL ∧
      (remountCheck env st).alarmTimer = kShortTermTTL ∧
      ((env.applyResult = .fail ∨ env.applyResult = .noSpace) →
        (remountCheck env st).revision = st.revision)) := by
  constructor
  · rintro ⟨hd, he, hres⟩
    unfold remountCheck remountFinish remountStart
    rcases hres with hres | hres <;>
      simp [hm, hd, he, hres]
  · rintro ⟨hd, hdl, he, hres⟩
    refine ⟨?_, ?_, ?_⟩
    · rcases hres with hres | hres | hres <;>
        (unfold remountCheck remountFinish; simp [hm, hd, hdl, he, hres])
    · rcases hres with hres | hres | hres <;>
        (unfold remountCheck remountFinish; simp [hm, hd, hdl, he, hres])
    · rintro (hf | hf) <;>
        (unfold remountCheck remountFinish; simp [hm, hd, hdl, he, hf])

/-- Witness for claim C6: a concrete expired catalog whose dry-run
remount fails installs the 180-second re-check. -/
theorem remount_failure_short_term_ttl_witness :
    (remountCheck remountEnvDemo remountStateDemo).catalogsValidUntil = 1180 ∧
    (remountCheck remountEnvDemo remountStateDemo).alarmTimer = 180 ∧
    (remountCheck remountEnvDemo remountStateDemo).revision = 17 := by
  have h := (remount_failure_short_term_ttl remountEnvDemo remountStateDemo
    rfl).1 ⟨rfl, rfl, Or.inl rfl⟩
  exact h

/-! ## Theorems: inode assignment round-trip (claim C8) -/

/-- Stripping an annotation undoes applying it: the XOR of the generation
counter is involutive, and the no-annotation case is the identity. -/
theorem annotStrip_annotApply (gen : Option Nat) (x : Nat) :
    annotStrip gen (annotApply gen x) = x := by
  cases gen with
  | none => rfl
  | some g =>
      change x ^^^ g ^^^ g = x
      rw [Nat.xor_assoc, Nat.xor_self, Nat.xor_zero]

/-- Claim C8: for a hardlink group of 0 in a catalog whose inode range is
not a dummy, the assigned inode is `row_id + inode_range_.offset`
transformed by the inode annotation when one is set, and
`GetRowIdFromInode` recovers the row id from the mangled inode. -/
theorem inode_mangle_roundtrip (rangeOffset row : Nat) (gen : Option Nat)
    (hmap : Nat → Option Nat)
    (hoff : rangeOffset < kU64Width) (hrow : row < kU64Width) :
    getMangledInode rangeOffset false gen hmap row 0 =
      annotApply gen ((row + rangeOffset) % kU64Width) ∧
    getRowIdFromInode rangeOffset gen
      (getMangledInode rangeOffset false gen hmap row 0) = row := by
  have hmangle : getMangledInode rangeOffset false gen hmap row 0 =
      annotApply gen ((row + rangeOffset) % kU64Width) := by
    simp [getMangledInode]
  refine ⟨hmangle, ?_⟩
  rw [hmangle]
  unfold getRowIdFromInode
  rw [annotStrip_annotApply]
  simp only [kU64Width] at *
  omega

/-- Witness for claim C8 at concrete values: row 42 in a range at offset
1000 with generation 7. -/
theorem inode_mangle_roundtrip_witness :
    getMangledInode 1000 false (some 7) (fun _ => none) 42 0 =
      Nat.xor 1042 7 ∧
    getRowIdFromInode 1000 (some 7)
      (getMangledInode 1000 false (some 7) (fun _ => none) 42 0) = 42 := by
  have h := inode_mangle_roundtrip 1000 42 (some 7) (fun _ => none)
    (by decide) (by decide)
  exact ⟨by rw [h.1]; rfl, h.2⟩

/-! ## Theorems: chunked read (claim C2) -/

/-- The empty chunk list has total size 0. -/
theorem chunksTotal_nil : chunksTotal [] = 0 := rfl

/-- Total size of a cons chunk list. -/
theorem chunksTotal_cons (c : FileChunk) (cs : List FileChunk) :
    chunksTotal (c :: cs) = c.size + chunksTotal cs := by
  simp [chunksTotal]

/-- Total size distributes over append. -/
theorem chunksTotal_append (a b : List FileChunk) :
    chunksTotal (a ++ b) = chunksTotal a + chunksTotal b := by
  simp [chunksTotal]

/-- Unpack one step of the coverage predicate. -/
theorem chunksCover_cons (start : Nat) (c : FileChunk) (cs : List FileChunk)
    (h : chunksCover start (c :: cs) = true) :
    c.offset = start ∧ c.data.length = c.size ∧ 0 < c.size ∧
      chunksCover (start + c.size) cs = true := by
  simp only [chunksCover, Bool.and_eq_true, beq_iff_eq, decide_eq_true_eq] at h
  exact ⟨h.1.1.1, h.1.1.2, h.1.2, h.2⟩

/-- Every chunk of a covering list has content of the recorded size. -/
theorem chunksCover_mem :
    ∀ (cs : List FileChunk) (s : Nat), chunksCover s cs = true →
      ∀ c ∈ cs, c.data.length = c.size ∧ 0 < c.size := by
  intro cs
  induction cs with
  | nil => intro s _ c hc; cases hc
  | cons c0 rest ih =>
      intro s h c hc
      obtain ⟨_, hlen, hpos, hrest⟩ := chunksCover_cons s c0 rest h
      rcases List.mem_cons.mp hc with rfl | hmem
      · exact ⟨hlen, hpos⟩
      · exact ih (s + c0.size) hrest c hmem

/-- In a covering list, a chunk's offset is the start plus the sizes
before it. -/
theorem chunksCover_getD_offset :
    ∀ (cs : List FileChunk) (s i : Nat), chunksCover s cs = true →
      i < cs.length →
      (cs.getD i default).offset = s + chunksTotal (cs.take i) := by
  intro cs
  induction cs with
  | nil => intro s i _ hi; cases hi
  | cons c rest ih =>
      intro s i h hi
      obtain ⟨hoff, _, _, hrest⟩ := chunksCover_cons s c rest h
      cases i with
      | zero => simpa [chunksTotal] using hoff
      | succ i =>
          have hi' : i < rest.length := by simpa using hi
          have := ih (s + c.size) i hrest hi'
          simp only [List.getD_cons_succ, List.take_succ_cons, chunksTotal_cons]
          omega

/-- A suffix of a covering list covers from the corresponding start. -/
theorem chunksCover_drop :
    ∀ (cs : List FileChunk) (s i : Nat), chunksCover s cs = true →
      chunksCover (s + chunksTotal (cs.take i)) (cs.drop i) = true := by
  intro cs
  induction cs with
  | nil => intro s i _; simp [chunksCover]
  | cons c rest ih =>
      intro s i h
      obtain ⟨_, _, _, hrest⟩ := chunksCover_cons s c rest h
      cases i with
      | zero => simpa [chunksTotal] using h
      | succ i =>
          have := ih (s + c.size) i hrest
          simp only [List.take_succ_cons, List.drop_succ_cons, chunksTotal_cons]
          have harith : s + (c.size + chunksTotal (rest.take i)) =
              s + c.size + chunksTotal (rest.take i) := by omega
          rw [harith]
          exact this

/-- Length of the concatenated contents when each chunk has content of
its recorded size. -/
theorem join_length_of_sizes :
    ∀ (cs : List FileChunk), (∀ c ∈ cs, c.data.length = c.size) →
      ((cs.map FileChunk.data).flatten).length = chunksTotal cs := by
  intro cs
  induction cs with
  | nil => intro _; rfl
  | cons c rest ih =>
      intro h
      simp only [List.map_cons, List.flatten_cons, List.length_append,
        chunksTotal_cons]
      rw [h c (List.mem_cons_self c rest), ih (fun d hd => h d (List.mem_cons_of_mem c hd))]

/-- Expose the head of a list suffix at an in-range index. -/
theorem getD_cons_drop :
    ∀ (cs : List FileChunk) (i : Nat), i < cs.length →
      cs.drop i = cs.getD i default :: cs.drop (i + 1) := by
  intro cs
  induction cs with
  | nil => intro i hi; cases hi
  | cons c rest ih =>
      intro i hi
      cases i with
      | zero => rfl
      | succ i =>
          have hi' : i < rest.length := by simpa using hi
          simpa using ih i hi'

/-- Extend a prefix by the element at its end. -/
theorem take_succ_getD :
    ∀ (cs : List FileChunk) (i : Nat), i < cs.length →
      cs.take (i + 1) = cs.take i ++ [cs.getD i default] := by
  intro cs
  induction cs with
  | nil => intro i hi; cases hi
  | cons c rest ih =>
      intro i hi
      cases i with
      | zero => rfl
      | succ i =>
          have hi' : i < rest.length := by simpa using hi
          simpa using ih i hi'


/-- Postcondition of the binary-search loop: starting from a window
whose left edge lies at or before `off` and whose right edge is the last
chunk or has its successor beyond `off`, the loop returns an in-range
index whose chunk starts at or before `off` and is either the last chunk
or followed by one starting beyond `off`. -/
theorem chunkSearchLoop_post (chunks : List FileChunk) (off : Nat) :
    ∀ (fuel lo hi idx : Nat), hi - lo < fuel → lo ≤ idx → idx ≤ hi →
      hi < chunks.length → (chunks.getD lo default).offset ≤ off →
      (hi = chunks.length - 1 ∨ off < (chunks.getD (hi + 1) default).offset) →
      idx = lo + (hi - lo) / 2 →
      (chunks.getD (chunkSearchLoop chunks off fuel lo hi idx) default).offset ≤ off ∧
      (chunkSearchLoop chunks off fuel lo hi idx = chunks.length - 1 ∨
        off < (chunks.getD (chunkSearchLoop chunks off fuel lo hi idx + 1) default).offset) ∧
      chunkSearchLoop chunks off fuel lo hi idx < chunks.length := by
  intro fuel
  induction fuel with
  | zero => intro lo hi idx hfuel _ _ _ _ _ _; omega
  | succ fuel ih =>
      intro lo hi idx hfuel hloidx hidxhi hhilen hlooff hdisj heq
      rw [chunkSearchLoop]
      by_cases hlh : lo < hi
      · have hidxhi2 : idx < hi := by omega
        rw [if_pos hlh]
        by_cases hc1 : (chunks.getD idx default).offset > off
        · rw [if_pos hc1]
          have hloidx2 : lo < idx := by
            rcases Nat.lt_or_ge lo idx with h | h
            · exact h
            · have : idx = lo := by omega
              rw [this] at hc1
              omega
          have hstep : idx - 1 + 1 = idx := by omega
          apply ih lo (idx - 1) (lo + (idx - 1 - lo) / 2) (by omega) (by omega)
            (by omega) (by omega) hlooff
          · right
            rw [hstep]
            exact hc1
          · rfl
        · rw [if_neg hc1]
          by_cases hc2 : idx = chunks.length - 1
          · rw [if_pos hc2]
            exact ⟨by omega, Or.inl hc2, by omega⟩
          · rw [if_neg hc2]
            by_cases hc3 : (chunks.getD (idx + 1) default).offset > off
            · rw [if_pos hc3]
              exact ⟨by omega, Or.inr hc3, by omega⟩
            · rw [if_neg hc3]
              apply ih (idx + 1) hi (idx + 1 + (hi - (idx + 1)) / 2) (by omega)
                (by omega) (by omega) hhilen (by omega) hdisj
              rfl
      · rw [if_neg hlh]
        have h1 : idx = hi := by omega
        have h2 : lo = hi := by omega
        subst h1
        rw [h2] at hlooff
        exact ⟨hlooff, hdisj, by omega⟩


/-- The read loop on a covering suffix returns exactly the concatenated
contents sliced from the in-chunk offset, truncated to the requested
size. -/
theorem chunkReadLoop_correct :
    ∀ (cs : List FileChunk) (s oc szRem : Nat), chunksCover s cs = true →
      oc ≤ cs.headI.size →
      chunkReadLoop cs oc szRem =
        ((cs.map FileChunk.data).flatten.drop oc).take szRem := by
  intro cs
  induction cs with
  | nil => intro s oc szRem _ _; simp [chunkReadLoop]
  | cons c rest ih =>
      intro s oc szRem hcov hoc
      obtain ⟨hoff, hlen, hpos, hrest⟩ := chunksCover_cons s c rest hcov
      have hoc2 : oc ≤ c.size := by simpa using hoc
      have hdl : (c.data.drop oc).length = c.size - oc := by
        rw [List.length_drop, hlen]
      rw [chunkReadLoop]
      by_cases hsz : szRem ≤ c.size - oc
      · have hmin : min szRem (c.size - oc) = szRem := Nat.min_eq_left hsz
        have hblen : ((c.data.drop oc).take (min szRem (c.size - oc))).length
            = szRem := by
          rw [List.length_take, hdl]
          omega
        rw [if_neg (by rw [hblen]; omega)]
        rw [List.append_nil, hmin]
        simp only [List.map_cons, List.flatten_cons]
        rw [List.drop_append_eq_append_drop]
        have h0 : oc - c.data.length = 0 := by rw [hlen]; omega
        rw [h0, List.drop_zero, List.take_append_eq_append_take]
        have h1 : szRem - (c.data.drop oc).length = 0 := by rw [hdl]; omega
        rw [h1, List.take_zero, List.append_nil]
      · have hmin : min szRem (c.size - oc) = c.size - oc :=
          Nat.min_eq_right (by omega)
        have hbytes : (c.data.drop oc).take (min szRem (c.size - oc))
            = c.data.drop oc := by
          rw [hmin]
          exact List.take_of_length_le (by rw [hdl])
        have hblen : ((c.data.drop oc).take (min szRem (c.size - oc))).length
            = c.size - oc := by
          rw [hbytes, hdl]
        rw [if_pos (by rw [hblen]; omega)]
        rw [hbytes, hdl]
        rw [ih (s + c.size) 0 (szRem - (c.size - oc)) hrest (Nat.zero_le _)]
        rw [List.drop_zero]
        simp only [List.map_cons, List.flatten_cons]
        rw [List.drop_append_eq_append_drop]
        have h0 : oc - c.data.length = 0 := by rw [hlen]; omega
        rw [h0, List.drop_zero, List.take_append_eq_append_take]
        have h1 : (c.data.drop oc).take szRem = c.data.drop oc :=
          List.take_of_length_le (by rw [hdl]; omega)
        rw [h1, hdl]

/-- Claim C2: for a chunked file whose chunk list covers `[0, file_size)`
contiguously with strictly increasing offsets, and a read at an offset
inside the file, the binary search selects the chunk whose offset range
contains the offset, and `cvmfs_read` returns exactly the concatenation
of the chunk contents sliced over `[off, off + size)` (truncated at end
of file), reading chunk by chunk across boundaries. -/
theorem cvmfs_read_chunked_correct (chunks : List FileChunk) (off sz : Nat)
    (hne : chunks ≠ []) (hcov : chunksCover 0 chunks = true)
    (hoff : off < chunksTotal chunks) :
    ((chunks.getD (findChunkIdx chunks off) default).offset ≤ off ∧
      off < (chunks.getD (findChunkIdx chunks off) default).offset +
        (chunks.getD (findChunkIdx chunks off) default).size) ∧
    cvmfsReadChunked chunks off sz =
      ((chunks.map FileChunk.data).flatten.drop off).take sz := by
  have hn : 0 < chunks.length := List.length_pos.mpr hne
  have hlo : (chunks.getD 0 default).offset ≤ off := by
    have h0 := chunksCover_getD_offset chunks 0 0 hcov hn
    rw [h0]
    simp [chunksTotal]
  have hpost := chunkSearchLoop_post chunks off chunks.length 0
    (chunks.length - 1) ((chunks.length - 1) / 2) (by omega) (by omega)
    (by omega) (by omega) hlo (Or.inl rfl) (by omega)
  have hpost2 : (chunks.getD (findChunkIdx chunks off) default).offset ≤ off ∧
      (findChunkIdx chunks off = chunks.length - 1 ∨
        off < (chunks.getD (findChunkIdx chunks off + 1) default).offset) ∧
      findChunkIdx chunks off < chunks.length := hpost
  have h1 : (chunks.getD (findChunkIdx chunks off) default).offset ≤ off :=
    hpost2.1
  have hrlt : findChunkIdx chunks off < chunks.length := hpost2.2.2
  have hroff : (chunks.getD (findChunkIdx chunks off) default).offset =
      chunksTotal (chunks.take (findChunkIdx chunks off)) := by
    have := chunksCover_getD_offset chunks 0 _ hcov hrlt
    simpa using this
  have htotal_split : chunksTotal chunks =
      chunksTotal (chunks.take (findChunkIdx chunks off)) +
      chunksTotal (chunks.drop (findChunkIdx chunks off)) := by
    have := chunksTotal_append (chunks.take (findChunkIdx chunks off))
      (chunks.drop (findChunkIdx chunks off))
    rw [List.take_append_drop] at this
    exact this
  have hdropr : chunks.drop (findChunkIdx chunks off) =
      chunks.getD (findChunkIdx chunks off) default ::
        chunks.drop (findChunkIdx chunks off + 1) :=
    getD_cons_drop chunks _ hrlt
  have hin : off < (chunks.getD (findChunkIdx chunks off) default).offset +
      (chunks.getD (findChunkIdx chunks off) default).size := by
    rcases hpost2.2.1 with hlast | hnext
    · have hdropsz : chunksTotal (chunks.drop (findChunkIdx chunks off)) =
          (chunks.getD (findChunkIdx chunks off) default).size := by
        rw [hdropr, chunksTotal_cons]
        have hprev : chunks.drop (findChunkIdx chunks off + 1) = [] :=
          List.drop_eq_nil_of_le (by omega)
        rw [hprev, chunksTotal_nil]
        omega
      omega
    · have hr1lt : findChunkIdx chunks off + 1 < chunks.length := by
        by_contra hcon
        push_neg at hcon
        have hdef : chunks.getD (findChunkIdx chunks off + 1) default =
            default := List.getD_eq_default _ _ hcon
        rw [hdef] at hnext
        have : (default : FileChunk).offset = 0 := rfl
        omega
      have hoffr1 : (chunks.getD (findChunkIdx chunks off + 1) default).offset =
          chunksTotal (chunks.take (findChunkIdx chunks off + 1)) := by
        have := chunksCover_getD_offset chunks 0 _ hcov hr1lt
        simpa using this
      have htake1 : chunks.take (findChunkIdx chunks off + 1) =
          chunks.take (findChunkIdx chunks off) ++
            [chunks.getD (findChunkIdx chunks off) default] :=
        take_succ_getD chunks _ hrlt
      rw [htake1, chunksTotal_append, chunksTotal_cons, chunksTotal_nil]
        at hoffr1
      omega
  refine ⟨⟨h1, hin⟩, ?_⟩
  unfold cvmfsReadChunked
  have hcovdrop := chunksCover_drop chunks 0 (findChunkIdx chunks off) hcov
  simp only [Nat.zero_add] at hcovdrop
  have hheadI : (chunks.drop (findChunkIdx chunks off)).headI =
      chunks.getD (findChunkIdx chunks off) default := by
    rw [hdropr]
    rfl
  rw [chunkReadLoop_correct (chunks.drop (findChunkIdx chunks off))
    (chunksTotal (chunks.take (findChunkIdx chunks off))) _ sz hcovdrop
    (by rw [hheadI]; omega)]
  have hsplit : (chunks.map FileChunk.data).flatten =
      ((chunks.take (findChunkIdx chunks off)).map FileChunk.data).flatten ++
      ((chunks.drop (findChunkIdx chunks off)).map FileChunk.data).flatten := by
    rw [← List.flatten_append, ← List.map_append, List.take_append_drop]
  have hflen :
      (((chunks.take (findChunkIdx chunks off)).map FileChunk.data).flatten).length
        = chunksTotal (chunks.take (findChunkIdx chunks off)) := by
    apply join_length_of_sizes
    intro c hc
    exact (chunksCover_mem chunks 0 hcov c (List.take_subset _ _ hc)).1
  rw [hsplit, List.drop_append_eq_append_drop]
  have hnil :
      (((chunks.take (findChunkIdx chunks off)).map FileChunk.data).flatten).drop off
        = [] := by
    apply List.drop_eq_nil_of_le
    rw [hflen]
    omega
  rw [hnil, List.nil_append, hflen, hroff]

/-- Witness for claim C2: reading 4 bytes at offset 2 of the three-chunk
demo file returns the slice of the concatenated contents. -/
theorem cvmfs_read_chunked_correct_witness :
    cvmfsReadChunked chunksDemo 2 4 =
      ((chunksDemo.map FileChunk.data).flatten.drop 2).take 4 :=
  (cvmfs_read_chunked_correct chunksDemo 2 4 (by decide) (by decide)
    (by decide)).2

/-! ## Theorems: nested-catalog transition fix-up (claim C4) -/

/-- `lookupMd5Path` has the exact call shape of the C code: find the row,
then apply `FixTransitionPoint` with the looked-up hash. -/
theorem lookupMd5Path_fix (c : CatalogData) (ancs : List CatalogData) (md5 : Nat) :
    lookupMd5Path (c :: ancs) md5 =
      match c.rows.find? (fun r => r.hash == md5) with
      | none => .ok none
      | some r =>
        match fixTransitionPoint ancs md5 r.entry with
        | .ok d => .ok (some d)
        | .error e => .error e := by
  rw [lookupMd5Path.eq_def]
  cases hfind : c.rows.find? (fun r => r.hash == md5) with
  | none => simp [hfind]
  | some r =>
      cases ancs with
      | nil => simp [fixTransitionPoint, hfind]
      | cons p rest =>
          by_cases hn : r.entry.nestedRoot = true
          · cases hpl : lookupMd5Path (p :: rest) md5 with
            | ok od =>
                cases od with
                | none => simp [fixTransitionPoint, hfind, hn, hpl]
                | some pd => simp [fixTransitionPoint, hfind, hn, hpl]
            | error e => simp [fixTransitionPoint, hfind, hn, hpl]
          · simp [fixTransitionPoint, hfind, hn]

/-- What the fix-up produces for a nested-root entry in a non-root
catalog: the inode of the parent lookup at the fix-up's hash argument. -/
theorem fixTransitionPoint_nested_output (ancs : List CatalogData) (md5 : Nat)
    (d0 d : DirEntry) (hfx : fixTransitionPoint ancs md5 d0 = .ok d)
    (hn : d.nestedRoot = true) (hanc : ancs ≠ []) :
    ∃ pd, lookupMd5Path ancs md5 = .ok (some pd) ∧ d.inode = pd.inode := by
  cases ancs with
  | nil => exact absurd rfl hanc
  | cons p rest =>
      by_cases hn0 : d0.nestedRoot = true
      · cases hpl : lookupMd5Path (p :: rest) md5 with
        | ok od =>
            cases od with
            | none =>
                rw [fixTransitionPoint] at hfx
                simp [hn0, hpl] at hfx
            | some pd =>
                rw [fixTransitionPoint] at hfx
                simp [hn0, hpl] at hfx
                exact ⟨pd, rfl, by rw [← hfx]⟩
        | error e =>
            rw [fixTransitionPoint] at hfx
            simp [hn0, hpl] at hfx
      · rw [fixTransitionPoint] at hfx
        simp [hn0] at hfx
        rw [← hfx] at hn
        exact absurd hn hn0

/-- Every entry of a successful listing is the fix-up of one of the
fetched rows. -/
theorem listingFix_mem (ancs : List CatalogData) (md5 : Nat) :
    ∀ (rs : List CatalogRow) (es : List DirEntry) (d : DirEntry),
      listingFix ancs md5 rs = .ok es → d ∈ es →
      ∃ r ∈ rs, fixTransitionPoint ancs md5 r.entry = .ok d := by
  intro rs
  induction rs with
  | nil =>
      intro es d h hd
      rw [listingFix] at h
      cases h
      cases hd
  | cons r rest ih =>
      intro es d h hd
      rw [listingFix] at h
      cases hfx : fixTransitionPoint ancs md5 r.entry with
      | error e => rw [hfx] at h; cases h
      | ok d0 =>
          rw [hfx] at h
          cases hrest : listingFix ancs md5 rest with
          | error e => rw [hrest] at h; cases h
          | ok ds =>
              rw [hrest] at h
              cases h
              rcases List.mem_cons.mp hd with rfl | hmem
              · exact ⟨r, List.mem_cons_self r rest, hfx⟩
              · rcases ih ds d hrest hmem with ⟨r2, hr2, hfx2⟩
                exact ⟨r2, List.mem_cons_of_mem r hr2, hfx2⟩

/-- Claim C4 counterexample: listing the directory with hash 1 against
the child catalog returns its nested-root entry (path hash 2) with inode
7 — the parent catalog's inode for the *listed directory* (hash 1) — even
though the parent records inode 9 for the entry's own path (hash 2), so a
listed nested-root entry does not get "the inode that the parent catalog
records for the same path". -/
theorem catalog_listing_fixup_counterexample :
    listingMd5Path [childCatalogCx, parentCatalogCx] 1 =
      .ok [{ inode := 7, nestedRoot := true }] ∧
    lookupMd5Path [parentCatalogCx] 2 =
      .ok (some { inode := 9, nestedRoot := false }) ∧
    (7 : Nat) ≠ 9 :=
  ⟨rfl, rfl, by decide⟩

/-- Claim C4 (amended): an entry returned by `LookupMd5Path` with the
nested-root bit set (from a non-root catalog) carries the inode the
parent catalog records for the same path; an entry returned by a listing
with the nested-root bit set carries the inode the parent catalog
records for the *listed directory's* hash, the hash `FixTransitionPoint`
is invoked with on the listing path. -/
theorem catalog_transition_fixup_spec :
    (∀ (c p : CatalogData) (ancs : List CatalogData) (md5 : Nat)
       (d : DirEntry),
      lookupMd5Path (c :: p :: ancs) md5 = .ok (some d) →
      d.nestedRoot = true →
      ∃ pd, lookupMd5Path (p :: ancs) md5 = .ok (some pd) ∧
        d.inode = pd.inode) ∧
    (∀ (c : CatalogData) (ancs : List CatalogData) (md5 : Nat)
       (es : List DirEntry) (d : DirEntry),
      ancs ≠ [] → listingMd5Path (c :: ancs) md5 = .ok es → d ∈ es →
      d.nestedRoot = true →
      ∃ pd, lookupMd5Path ancs md5 = .ok (some pd) ∧
        d.inode = pd.inode) := by
  constructor
  · intro c p ancs md5 d hl hn
    rw [lookupMd5Path_fix] at hl
    cases hfind : c.rows.find? (fun r => r.hash == md5) with
    | none => simp only [hfind] at hl; cases hl
    | some r =>
        simp only [hfind] at hl
        cases hfx : fixTransitionPoint (p :: ancs) md5 r.entry with
        | error e => simp only [hfx] at hl; cases hl
        | ok d0 =>
            simp only [hfx] at hl
            cases hl
            exact fixTransitionPoint_nested_output (p :: ancs) md5 r.entry d hfx hn (by simp)
  · intro c ancs md5 es d hanc hl hd hn
    rw [listingMd5Path] at hl
    rcases listingFix_mem ancs md5 _ es d hl hd with ⟨r, _, hfx⟩
    exact fixTransitionPoint_nested_output ancs md5 r.entry d hfx hn hanc

/-- Witness for claim C4 at the concrete two-catalog chain: looking up
the mountpoint hash 2 in the child yields the parent's inode 9, and the
listed nested-root entry gets the parent's inode 7 for the listed
directory hash 1. -/
theorem catalog_transition_fixup_spec_witness :
    (∃ pd, lookupMd5Path [parentCatalogCx] 2 = .ok (some pd) ∧
      (⟨9, true⟩ : DirEntry).inode = pd.inode) ∧
    (∃ pd, lookupMd5Path [parentCatalogCx] 1 = .ok (some pd) ∧
      (⟨7, true⟩ : DirEntry).inode = pd.inode) := by
  constructor
  · exact catalog_transition_fixup_spec.1 childCatalogCx parentCatalogCx []
      2 ⟨9, true⟩ rfl rfl
  · exact catalog_transition_fixup_spec.2 childCatalogCx [parentCatalogCx]
      1 [⟨7, true⟩] ⟨7, true⟩ (by simp) rfl (by simp) rfl

/-! ## Theorems: open-file cap (claim C5) -/

/-- The increment-then-decrement of `open_files_` on an over-cap open
leaves the state unchanged. -/
theorem openState_inc_dec (st : OpenState) :
    ({ st with openFiles := st.openFiles + 1 - 1 } : OpenState) = st := by
  cases st
  simp

/-- Claim C5 counterexample: `cvmfs_open` of a regular file whose
`cache::FetchDirent` fails with `errno == EMFILE` replies EMFILE even
though the live-handle count (0) is far below
`max_open_files - kNumReservedFd` (9488), so the reply is not issued
"exactly when" admitting the request would exceed the cap. -/
theorem cvmfs_open_emfile_cap_counterexample :
    (cvmfsOpen openEnvCx openStateCx).1 = .err EMFILE ∧
    ¬(openStateCx.openFiles ≥ (openEnvCx.maxOpenFiles : Int) - kNumReservedFd) := by
  decide

/-- Claim C5 (amended): `cvmfs_open` replies EMFILE exactly when either
admitting the request would push the live-handle count above
`max_open_files - kNumReservedFd` (the chunked-path check, or the
regular path after a successful fetch) or the content fetch itself
failed with `errno == EMFILE`; and every EMFILE reply leaves the
observable state unchanged.  The hypothesis ties the negative
`FetchDirent` return value to the `errno` it reports. -/
theorem cvmfs_open_emfile_spec (env : OpenEnv) (st : OpenState)
    (hwf : env.fetchFd < 0 → env.fetchFd = -env.fetchErrno) :
    ((cvmfsOpen env st).1 = .err EMFILE ↔
      (env.found = true ∧ env.flagExcl = false ∧
        (((env.isChunked = true ∨ 0 ≤ env.fetchFd) ∧
          st.openFiles ≥ (env.maxOpenFiles : Int) - kNumReservedFd) ∨
         (env.isChunked = false ∧ env.fetchFd < 0 ∧ env.fetchErrno = EMFILE)))) ∧
    ((cvmfsOpen env st).1 = .err EMFILE → (cvmfsOpen env st).2 = st) := by
  constructor
  · unfold cvmfsOpen
    split_ifs <;>
      simp_all [ENOENT, EEXIST, EIO, EMFILE, kNumReservedFd] <;>
      omega
  · unfold cvmfsOpen
    split_ifs <;> intro hr <;>
      simp_all [ENOENT, EEXIST, EIO, EMFILE, openState_inc_dec]

/-- Witness for claim C5: opening a chunked file with the counter at the
cap replies EMFILE and leaves the state unchanged. -/
theorem cvmfs_open_emfile_spec_witness :
    (cvmfsOpen openEnvDemo openStateDemo).1 = .err EMFILE ∧
    (cvmfsOpen openEnvDemo openStateDemo).2 = openStateDemo := by
  have h := cvmfs_open_emfile_spec openEnvDemo openStateDemo (by decide)
  have h1 : (cvmfsOpen openEnvDemo openStateDemo).1 = .err EMFILE :=
    h.1.mpr ⟨rfl, rfl, Or.inl ⟨Or.inl rfl, by decide⟩⟩
  exact ⟨h1, h.2 h1⟩

/-! ## Theorems: forget protocol (claim C7) -/

/-- Balance invariant of the tracker under a well-formed trace: for a
non-root inode, the tracked count plus the forgotten total equals the
starting count plus the lookups delivered. -/
theorem runEvents_balance (ino : Nat) (hroot : ino ≠ kFuseRootId) :
    ∀ (es : List FsEvent) (t : Nat → Nat), eventsOk ino es (t ino) = true →
      runEvents false es t ino + forgetSum ino es =
        t ino + lookupCount ino es := by
  intro es
  induction es with
  | nil => intro t _; simp [runEvents, forgetSum, lookupCount]
  | cons e es ih =>
      intro t hok
      cases e with
      | lookupRet i =>
          simp only [runEvents, forgetSum, lookupCount]
          by_cases h : i = ino
          · subst h
            have ht : (cvmfsLookupReply false t i) i = t i + 1 := by
              simp [cvmfsLookupReply, vfsGet]
            have hok' : eventsOk i es ((cvmfsLookupReply false t i) i) = true := by
              rw [ht]
              simpa [eventsOk] using hok
            have hbal := ih (cvmfsLookupReply false t i) hok'
            rw [ht] at hbal
            simp
            omega
          · have ht : (cvmfsLookupReply false t i) ino = t ino := by
              simp [cvmfsLookupReply, vfsGet, Ne.symm h]
            have hok' : eventsOk ino es ((cvmfsLookupReply false t i) ino) = true := by
              rw [ht]
              simpa [eventsOk, h] using hok
            have hbal := ih (cvmfsLookupReply false t i) hok'
            rw [ht] at hbal
            simp only [if_neg h]
            omega
      | forget i n =>
          simp only [runEvents, forgetSum, lookupCount]
          by_cases hr2 : i = kFuseRootId
          · have hne : i ≠ ino := fun hc => hroot (hc ▸ hr2)
            have ht : cvmfsForget false t i n = t := by
              simp [cvmfsForget, hr2]
            rw [ht]
            have hok' : eventsOk ino es (t ino) = true := by
              simpa [eventsOk, hne] using hok
            have hbal := ih t hok'
            simp only [if_neg hne]
            omega
          · have ht : cvmfsForget false t i n = vfsPut t i n := by
              simp [cvmfsForget, hr2]
            rw [ht]
            by_cases h : i = ino
            · subst h
              have hval : (vfsPut t i n) i = t i - n := by simp [vfsPut]
              have hok1 : n ≤ t i ∧ eventsOk i es (t i - n) = true := by
                have hh := hok
                simp [eventsOk] at hh
                exact hh
              have hbal := ih (vfsPut t i n) (by rw [hval]; exact hok1.2)
              rw [hval] at hbal
              simp
              omega
            · have hval : (vfsPut t i n) ino = t ino := by
                simp [vfsPut, Ne.symm h]
              have hok' : eventsOk ino es ((vfsPut t i n) ino) = true := by
                rw [hval]
                simpa [eventsOk, h] using hok
              have hbal := ih (vfsPut t i n) hok'
              rw [hval] at hbal
              simp only [if_neg h]
              omega

/-- Claim C7 counterexample: a `forget(FUSE_ROOT_ID, 3)` delivered to
`cvmfs_forget` does not invoke `VfsPut`: with the root tracked at count
5 the count stays 5 instead of dropping to 2. -/
theorem cvmfs_forget_root_counterexample :
    cvmfsForget false forgetTrackerCx kFuseRootId 3 kFuseRootId = 5 ∧
    forgetTrackerCx kFuseRootId - 3 = 2 ∧ (5 : Nat) ≠ 2 := by
  decide

/-- Claim C7 (amended): for every inode other than `FUSE_ROOT_ID` (in
non-NFS mode) `cvmfs_forget` invokes `VfsPut`, decrementing the tracked
count by `n`; consequently, along any kernel-well-formed trace starting
from an empty tracker, the tracked count of a non-root inode equals its
positive lookup replies minus its forgotten total. -/
theorem cvmfs_forget_vfs_put_spec :
    (∀ (t : Nat → Nat) (ino n : Nat), ino ≠ kFuseRootId →
      cvmfsForget false t ino n = vfsPut t ino n ∧
      cvmfsForget false t ino n ino = t ino - n) ∧
    (∀ (es : List FsEvent) (ino : Nat), ino ≠ kFuseRootId →
      eventsOk ino es 0 = true →
      runEvents false es (fun _ => 0) ino =
        lookupCount ino es - forgetSum ino es) := by
  constructor
  · intro t ino n h
    have hput : cvmfsForget false t ino n = vfsPut t ino n := by
      simp [cvmfsForget, h]
    exact ⟨hput, by rw [hput]; simp [vfsPut]⟩
  · intro es ino hroot hok
    have hbal := runEvents_balance ino hroot es (fun _ => 0) (by simpa using hok)
    have h0 : ((fun _ => 0) ino : Nat) = 0 := rfl
    rw [h0] at hbal
    omega

/-- Witness for claim C7: a forget on inode 7 decrements its count, and
the demo trace (two lookups of inode 5, one forget of 1) leaves inode 5
tracked at count 1. -/
theorem cvmfs_forget_vfs_put_spec_witness :
    cvmfsForget false forgetTrackerCx 7 2 7 = forgetTrackerCx 7 - 2 ∧
    runEvents false fsEventsDemo (fun _ => 0) 5 = 1 := by
  constructor
  · exact (cvmfs_forget_vfs_put_spec.1 forgetTrackerCx 7 2 (by decide)).2
  · have h := cvmfs_forget_vfs_put_spec.2 fsEventsDemo 5 (by decide) (by decide)
    rw [h]
    decide

/-! ## Theorems: getxattr buffer protocol (claim C9) -/

/-- Claim C9: for a known virtual attribute on a found inode,
`cvmfs_getxattr` with `size == 0` replies the required value length, with
`0 < size <` value length replies ERANGE, and with `size >=` value
length replies the value bytes with their length. -/
theorem getxattr_buffer_protocol (v : String) (sz : Nat) :
    (sz = 0 → cvmfsGetxattr true (some v) sz = .xattrSize v.length) ∧
    (0 < sz → sz < v.length → cvmfsGetxattr true (some v) sz = .err ERANGE) ∧
    (0 < sz → v.length ≤ sz → cvmfsGetxattr true (some v) sz = .buf v v.length) := by
  refine ⟨?_, ?_, ?_⟩
  · intro h0
    simp [cvmfsGetxattr, h0]
  · intro hpos hlt
    have h0 : ¬(sz = 0) := by omega
    have h1 : ¬(sz ≥ v.length) := by omega
    simp [cvmfsGetxattr, h0, h1]
  · intro hpos hge
    have h0 : ¬(sz = 0) := by omega
    simp [cvmfsGetxattr, h0, hge]

/-- Witness for claim C9: the three buffer sizes 0, 2 and 8 against a
3-byte attribute value. -/
theorem getxattr_buffer_protocol_witness :
    cvmfsGetxattr true (some "abc") 0 = .xattrSize 3 ∧
    cvmfsGetxattr true (some "abc") 2 = .err ERANGE ∧
    cvmfsGetxattr true (some "abc") 8 = .buf "abc" 3 := by
  refine ⟨?_, ?_, ?_⟩
  · exact (getxattr_buffer_protocol "abc" 0).1 rfl
  · exact (getxattr_buffer_protocol "abc" 2).2.1 (by decide) (by decide)
  · exact (getxattr_buffer_protocol "abc" 8).2.2 (by decide) (by decide)

end Cvmfs
